import Mathlib

/-!
Shallow embedding of `src/task-1.py`, an ETL script: load a fixed tabular
dataset (four Iris feature columns plus a categorical `target` column),
impute missing values, standardize numeric columns, one-hot encode the
categorical column, and write the result to `transformed_data.csv`.

Modelling conventions:
* A cell is `Option ℚ`: `none` models a missing value (NaN); all values in
  the script (Iris features and the integer target labels) are rationals.
* `StandardScaler` divides by the square root of the per-column biased
  variance (sum of squared deviations divided by the row count).  The square
  root is the one operation that leaves ℚ, so the embedding takes the
  library's square-root as an oracle `sqrtv : ℚ → ℚ`; theorems that depend
  on its meaning carry the hypothesis `(sqrtv v) ^ 2 = v`.  Following
  sklearn's `_handle_zeros_in_scale`, a zero variance makes the scale 1.
* `SimpleImputer(strategy='mean')` fills missing cells with the mean of the
  present cells; `strategy='most_frequent'` fills with the most frequent
  present value (smallest such value on ties).
* `OneHotEncoder` sorts the distinct observed values into its category
  list and emits one 0/1 indicator column per category, named
  `column_value` by `get_feature_names_out`.
* `ColumnTransformer` selects the configured columns by name (failing when
  a name is absent), applies the numeric chain to the numeric columns and
  the categorical chain to the categorical columns, and concatenates the
  numeric outputs with the indicator outputs.
* `DataFrame.to_csv(..., index=False)` is modelled as producing a header
  line of the column names and one comma-separated line per row, written
  to a fixed path of an explicit file-system map.
-/

namespace ETL

/-- A named column of a loaded table; `none` entries are missing values. -/
structure Column where
  name : String
  values : List (Option ℚ)
deriving DecidableEq

/-- A loaded table: an ordered sequence of named columns. -/
structure Table where
  cols : List Column
deriving DecidableEq

/-- Every column of `t` has exactly `n` entries (positional row alignment). -/
def Table.hasRowCount (t : Table) (n : Nat) : Prop :=
  ∀ c ∈ t.cols, c.values.length = n

instance (t : Table) (n : Nat) : Decidable (t.hasRowCount n) := by
  unfold Table.hasRowCount; infer_instance

/-- Column lookup by name, as `ColumnTransformer` selects columns from the
DataFrame; `none` when no column has that name. -/
def Table.getCol (t : Table) (nm : String) : Option (List (Option ℚ)) :=
  (t.cols.find? (fun c => c.name = nm)).map Column.values

/-- The present (non-missing) entries of a column, in order. -/
def present (xs : List (Option ℚ)) : List ℚ :=
  xs.filterMap id

/-- Arithmetic mean of a list of rationals (0 for the empty list, an
artificial value never used by the script on nonempty data). -/
def mean (xs : List ℚ) : ℚ :=
  xs.sum / xs.length

/-- Biased sample variance (division by the count), exactly the statistic
`StandardScaler` fits. -/
def pvariance (xs : List ℚ) : ℚ :=
  ((xs.map (fun x => (x - mean xs) ^ 2)).sum) / xs.length

/-- Embedding of `SimpleImputer(strategy='mean')`: replace each missing entry by the mean
of the present entries of the same column. -/
def imputeMean (xs : List (Option ℚ)) : List ℚ :=
  xs.map (fun o => o.getD (mean (present xs)))

/-- One fold step of the most-frequent search: keep the candidate whose
count in `xs` is strictly larger. -/
def pickMode (xs : List ℚ) (cands : List ℚ) (best : ℚ) : ℚ :=
  cands.foldl (fun b c => if xs.count b < xs.count c then c else b) best

/-- The most frequent value of `xs` (the smallest one on ties, matching
`SimpleImputer(strategy='most_frequent')`); 0 for the empty list. -/
def mostFrequent (xs : List ℚ) : ℚ :=
  let cands := (xs.dedup).insertionSort (· ≤ ·)
  pickMode xs cands (cands.headD 0)

/-- Embedding of `SimpleImputer(strategy='most_frequent')`: replace each missing entry by
the most frequent present value of the same column. -/
def imputeMostFrequent (xs : List (Option ℚ)) : List ℚ :=
  xs.map (fun o => o.getD (mostFrequent (present xs)))

/-- Embedding of `OneHotEncoder.fit`: the sorted distinct values of the fitted column. -/
def categoriesOf (xs : List ℚ) : List ℚ :=
  (xs.dedup).insertionSort (· ≤ ·)

/-- The indicator row a one-hot encoder with category list `cats` produces
for the single value `v`. -/
def oneHotRow (cats : List ℚ) (v : ℚ) : List ℚ :=
  cats.map (fun c => if v = c then 1 else 0)

/-- The categorical pipeline on one column: impute the most frequent value,
then one binary indicator column per distinct observed value, in the
encoder's (sorted) category order. -/
def catTransform (xs : List (Option ℚ)) : List (List ℚ) :=
  let ys := imputeMostFrequent xs
  let cats := categoriesOf ys
  cats.map (fun c => ys.map (fun v => if v = c then 1 else 0))

/-- Embedding of `get_feature_names_out`: one generated name per category, the source
column name, an underscore, and the category value. -/
def catFeatureNames (colName : String) (cats : List ℚ) : List String :=
  cats.map (fun c => colName ++ "_" ++ toString c)

/-- Embedding of `StandardScaler.fit_transform` on one already-imputed column, with `sq`
standing for the library's square root of the column's variance: subtract
the column mean and divide by the scale, the scale being 1 when the
variance is 0 (sklearn's `_handle_zeros_in_scale`). -/
def standardize (sq : ℚ) (xs : List ℚ) : List ℚ :=
  let m := mean xs
  let s := if pvariance xs = 0 then 1 else sq
  xs.map (fun x => (x - m) / s)

/-- The numeric pipeline on one column: mean imputation then
standardization, fit and applied in one pass on the same column. -/
def numTransform (sq : ℚ) (xs : List (Option ℚ)) : List ℚ :=
  standardize sq (imputeMean xs)

/-- The transformed table: header names and column-major rational data. -/
structure Frame where
  header : List String
  columns : List (List ℚ)
deriving DecidableEq

/-- Row count of a frame (length of its first column). -/
def Frame.nrows (fr : Frame) : Nat :=
  (fr.columns.headD []).length

/-- Column `j` of a frame, `[]` when out of range. -/
def Frame.colD (fr : Frame) (j : Nat) : List ℚ :=
  fr.columns.getD j []

/-- Row-major view of column-major data with `n` rows. -/
def rowsOfCols (n : Nat) (cols : List (List ℚ)) : List (List ℚ) :=
  (List.range n).map (fun i => cols.map (fun c => c.getD i 0))

/-- The rows of a frame, in order. -/
def Frame.rows (fr : Frame) : List (List ℚ) :=
  rowsOfCols fr.nrows fr.columns

/-- Select the columns named in `names`, in order; `none` as soon as one
name is absent from the table (the configuration-mismatch failure of
`ColumnTransformer`). -/
def selectCols (t : Table) (names : List String) : Option (List (List (Option ℚ))) :=
  match names with
  | [] => some []
  | nm :: rest =>
      match t.getCol nm with
      | none => none
      | some c =>
          match selectCols t rest with
          | none => none
          | some cs => some (c :: cs)

/-- Assemble the transformed frame from the selected numeric and
categorical source columns: numeric outputs first (original order), then
all generated indicator columns; the header is built the same way from
`get_feature_names_out`. -/
def buildFrame (sqrtv : ℚ → ℚ) (numF catF : List String)
    (numSrc catSrc : List (List (Option ℚ))) : Frame :=
  { header := numF ++
      ((catF.zip catSrc).map
        (fun p => catFeatureNames p.1 (categoriesOf (imputeMostFrequent p.2)))).flatten
    columns := (numSrc.map (fun xs => numTransform (sqrtv (pvariance (imputeMean xs))) xs)) ++
      (catSrc.map catTransform).flatten }

/-- Embedding of `preprocessor.fit_transform` plus the column renaming of the script:
select the configured columns (failing when one is absent) and build the
transformed frame. -/
def preprocess (sqrtv : ℚ → ℚ) (numF catF : List String) (t : Table) :
    Option Frame :=
  match selectCols t numF with
  | none => none
  | some numSrc =>
      match selectCols t catF with
      | none => none
      | some catSrc => some (buildFrame sqrtv numF catF numSrc catSrc)

/-- The hardcoded numeric feature list (`iris.feature_names`). -/
def numerical_features : List String :=
  ["sepal length (cm)", "sepal width (cm)", "petal length (cm)", "petal width (cm)"]

/-- The hardcoded categorical feature list. -/
def categorical_features : List String :=
  ["target"]

/-- The whole transform stage of the script on a loaded table. -/
def runPipeline (sqrtv : ℚ → ℚ) (t : Table) : Option Frame :=
  preprocess sqrtv numerical_features categorical_features t

/-- Rendering of one rational cell for the output file. -/
def renderCell (q : ℚ) : String :=
  toString q

/-- The lines of the CSV serialization: one header line of the column
names, then one comma-separated line per row, no row-index column
(`to_csv(..., index=False)`). -/
def csvLines (fr : Frame) : List String :=
  (String.intercalate "," fr.header) ::
    fr.rows.map (fun r => String.intercalate "," (r.map renderCell))

/-- The full output text, each line terminated by a newline. -/
def csv (fr : Frame) : String :=
  String.join ((csvLines fr).map (fun l => l ++ "\x0a"))

/-- The fixed output path of the script. -/
def outPath : String :=
  "transformed_data.csv"

/-- A file system as a map from paths to file contents. -/
def FileSys : Type :=
  String → Option String

/-- Writing a file: the written path now holds exactly `content`,
overwriting whatever was there; every other path is untouched. -/
def writeFile (fs : FileSys) (path content : String) : FileSys :=
  fun p => if p = path then some content else fs p

/-- One whole run of the script after loading: transform, then write the
CSV to the fixed path; on a transform error nothing is written. -/
def runETL (sqrtv : ℚ → ℚ) (t : Table) (fs : FileSys) : FileSys :=
  match runPipeline sqrtv t with
  | none => fs
  | some fr => writeFile fs outPath (csv fr)

/-- The square-root oracle of the sample runs: the constant 1, correct for
columns whose variance is 1. -/
def sqrt1 : ℚ → ℚ := fun _ => 1

/-- A small concrete table with the script's schema: four numeric feature
columns with entries 0 and 2 (mean 1, variance 1) and a target column with
the two categories 0 and 1. -/
def sampleTable : Table :=
  ⟨[⟨"sepal length (cm)", [some 0, some 2]⟩,
    ⟨"sepal width (cm)", [some 0, some 2]⟩,
    ⟨"petal length (cm)", [some 0, some 2]⟩,
    ⟨"petal width (cm)", [some 0, some 2]⟩,
    ⟨"target", [some 0, some 1]⟩]⟩

/-- The numeric source columns of the sample table, as selected. -/
def sampleNumSrc : List (List (Option ℚ)) :=
  [[some 0, some 2], [some 0, some 2], [some 0, some 2], [some 0, some 2]]

/-- The categorical source columns of the sample table, as selected. -/
def sampleCatSrc : List (List (Option ℚ)) :=
  [[some 0, some 1]]

/-- The sample table with the target column removed (a configuration
mismatch for the hardcoded categorical feature list). -/
def badTable : Table :=
  ⟨[⟨"sepal length (cm)", [some 0, some 2]⟩,
    ⟨"sepal width (cm)", [some 0, some 2]⟩,
    ⟨"petal length (cm)", [some 0, some 2]⟩,
    ⟨"petal width (cm)", [some 0, some 2]⟩]⟩

/-- An empty file system. -/
def fsEmpty : FileSys := fun _ => none

/-- A file system that already holds stale content at the output path. -/
def fsStale : FileSys := fun _ => some "stale"

/-- A concrete frame for exercising the writer. -/
def sampleFrame : Frame :=
  ⟨["a", "b"], [[1, 2], [3, 4]]⟩

/-- A concrete column with one missing entry, for exercising imputation. -/
def holeCol : List (Option ℚ) :=
  [some 1, none, some 1, some 3]

/-! ### Auxiliary lemmas on sums, means and variances -/

lemma sum_map_sub_mul (xs : List ℚ) (c t : ℚ) :
    (xs.map (fun x => (x - c) * t)).sum = (xs.sum - xs.length * c) * t := by
  induction xs with
  | nil => simp
  | cons a l ih =>
      rw [List.map_cons, List.sum_cons, ih, List.sum_cons, List.length_cons]
      push_cast
      ring

lemma sum_map_mul_const (xs : List ℚ) (f : ℚ → ℚ) (t : ℚ) :
    (xs.map (fun x => f x * t)).sum = (xs.map f).sum * t := by
  induction xs with
  | nil => simp
  | cons a l ih =>
      rw [List.map_cons, List.sum_cons, ih, List.map_cons, List.sum_cons]
      ring

lemma ne_nil_of_pvariance_ne_zero {xs : List ℚ} (hv : pvariance xs ≠ 0) :
    xs ≠ [] := by
  intro h
  subst h
  simp [pvariance] at hv

lemma length_cast_ne_zero {xs : List ℚ} (h : xs ≠ []) :
    (xs.length : ℚ) ≠ 0 := by
  simpa using h

lemma sum_eq_length_mul_mean (xs : List ℚ) (h : xs ≠ []) :
    xs.sum = xs.length * mean xs := by
  rw [mean, mul_div_cancel₀ _ (length_cast_ne_zero h)]

/-- The standardized column always has mean exactly 0 (for a constant
column the scale is 1 and every entry becomes 0, so this needs no
hypothesis at all). -/
lemma mean_standardize (sq : ℚ) (xs : List ℚ) :
    mean (standardize sq xs) = 0 := by
  rcases eq_or_ne xs [] with h | h
  · subst h
    simp [standardize, mean]
  · rw [standardize, mean]
    simp only [List.length_map, div_eq_mul_inv]
    rw [sum_map_sub_mul, sum_eq_length_mul_mean xs h, sub_self, zero_mul, zero_mul]

/-- The standardized column has biased variance exactly 1 whenever the
original variance is nonzero and the scale squares back to it. -/
lemma pvariance_standardize {sq : ℚ} {xs : List ℚ}
    (hv : pvariance xs ≠ 0) (hsq : sq ^ 2 = pvariance xs) :
    pvariance (standardize sq xs) = 1 := by
  have hne : xs ≠ [] := ne_nil_of_pvariance_ne_zero hv
  have hn : (xs.length : ℚ) ≠ 0 := length_cast_ne_zero hne
  have hSS : (xs.map (fun x => (x - mean xs) ^ 2)).sum ≠ 0 := by
    intro h0
    apply hv
    rw [pvariance, h0, zero_div]
  have hm0 : mean (standardize sq xs) = 0 := mean_standardize sq xs
  rw [pvariance, hm0]
  simp only [sub_zero, List.length_map]
  have hys : standardize sq xs = xs.map (fun x => (x - mean xs) * sq⁻¹) := by
    rw [standardize]
    simp only [if_neg hv, div_eq_mul_inv]
  rw [hys, List.map_map]
  have hcomp : ((fun y => y ^ 2) ∘ fun x => (x - mean xs) * sq⁻¹) =
      fun x => (x - mean xs) ^ 2 * (sq⁻¹) ^ 2 := by
    funext x
    simp [mul_pow]
  rw [hcomp, sum_map_mul_const]
  have hsqne : sq ≠ 0 := by
    intro h0
    rw [h0] at hsq
    simp at hsq
    exact hv hsq.symm
  rw [pvariance] at hsq
  field_simp at hsq ⊢
  nlinarith [hsq]

lemma getD_map_lt {α β : Type} (f : α → β) (l : List α) (j : Nat)
    (h : j < l.length) (d : β) :
    (l.map f).getD j d = f (l.get ⟨j, h⟩) := by
  rw [List.getD_eq_getElem?_getD, List.getElem?_map, List.getElem?_eq_getElem h]
  rfl

lemma colD_buildFrame_num (sqrtv : ℚ → ℚ) (numF catF : List String)
    (numSrc catSrc : List (List (Option ℚ))) (j : Nat) (hj : j < numSrc.length) :
    (buildFrame sqrtv numF catF numSrc catSrc).colD j =
      numTransform (sqrtv (pvariance (imputeMean (numSrc.get ⟨j, hj⟩))))
        (numSrc.get ⟨j, hj⟩) := by
  rw [buildFrame, Frame.colD]
  rw [List.getD_append _ _ _ _ (by simpa using hj)]
  exact getD_map_lt _ _ _ hj _

/-! ### C1: standardized numeric output columns -/

/-- C1.  After the transform stage every numeric output column (column `j`
of the frame, for `j` below the number of numeric source columns) has mean
exactly 0 and biased variance exactly 1, the statistics being fit and
applied in one pass on the same column: whenever the imputed column's
variance is nonzero and the library's square root `sqrtv` squares back to
that variance.  Exact equality over ℚ subsumes the floating-point
tolerance of the specification. -/
theorem standardized_columns (sqrtv : ℚ → ℚ) (numF catF : List String)
    (numSrc catSrc : List (List (Option ℚ))) (j : Nat) (hj : j < numSrc.length)
    (hv : pvariance (imputeMean (numSrc.get ⟨j, hj⟩)) ≠ 0)
    (hsq : (sqrtv (pvariance (imputeMean (numSrc.get ⟨j, hj⟩)))) ^ 2 =
      pvariance (imputeMean (numSrc.get ⟨j, hj⟩))) :
    mean ((buildFrame sqrtv numF catF numSrc catSrc).colD j) = 0 ∧
      pvariance ((buildFrame sqrtv numF catF numSrc catSrc).colD j) = 1 := by
  rw [colD_buildFrame_num sqrtv numF catF numSrc catSrc j hj, numTransform]
  exact ⟨mean_standardize _ _, pvariance_standardize hv hsq⟩

/-- Concrete instantiation of C1: one numeric column with entries 0 and 2
(mean 1, variance 1), every hypothesis discharged by evaluation. -/
theorem standardized_columns_witness :
    mean ((buildFrame sqrt1 numerical_features categorical_features
      [[some 0, some 2]] [[some 0, some 1]]).colD 0) = 0 ∧
    pvariance ((buildFrame sqrt1 numerical_features categorical_features
      [[some 0, some 2]] [[some 0, some 1]]).colD 0) = 1 :=
  standardized_columns sqrt1 numerical_features categorical_features
    [[some 0, some 2]] [[some 0, some 1]] 0 (by decide)
    (by norm_num [pvariance, imputeMean, mean, present, List.filterMap_cons])
    (by norm_num [sqrt1, pvariance, imputeMean, mean, present, List.filterMap_cons])

/-! ### C9, C10: imputation and scaling edge cases -/

lemma sum_of_const {c : ℚ} : ∀ (xs : List ℚ), (∀ x ∈ xs, x = c) →
    xs.sum = xs.length * c := by
  intro xs h
  induction xs with
  | nil => simp
  | cons a l ih =>
      rw [List.sum_cons, ih (fun x hx => h x (List.mem_cons_of_mem a hx)),
        h a (List.mem_cons_self a l), List.length_cons]
      push_cast
      ring

lemma mean_const {xs : List ℚ} {c : ℚ} (hne : xs ≠ []) (h : ∀ x ∈ xs, x = c) :
    mean xs = c := by
  rw [mean, sum_of_const xs h, mul_comm,
    mul_div_cancel_right₀ _ (length_cast_ne_zero hne)]

lemma mem_present_of_some {xs : List (Option ℚ)} {v : ℚ} (h : some v ∈ xs) :
    v ∈ present xs := by
  rw [present, List.mem_filterMap]
  exact ⟨some v, h, rfl⟩

lemma imputeMean_const {xs : List (Option ℚ)} {c : ℚ}
    (hne : present xs ≠ []) (hc : ∀ v ∈ present xs, v = c) :
    ∀ y ∈ imputeMean xs, y = c := by
  intro y hy
  rw [imputeMean] at hy
  obtain ⟨o, ho, rfl⟩ := List.mem_map.mp hy
  cases o with
  | some v => exact hc v (mem_present_of_some ho)
  | none => exact mean_const hne hc

/-- C9.  A constant numeric column (zero variance over the present values)
does not break the pipeline: the scale falls back to 1 and the column is
mapped to all zeros, a list of `xs.length` zeros in the output (the
embedding is total, so no division-by-zero failure can occur; this theorem
pins the value the code produces). -/
theorem constant_column_all_zeros (sq : ℚ) (xs : List (Option ℚ)) (c : ℚ)
    (hne : present xs ≠ []) (hc : ∀ v ∈ present xs, v = c) :
    numTransform sq xs = List.replicate xs.length 0 := by
  have hxs : xs ≠ [] := by
    intro h
    subst h
    exact hne rfl
  have himp : ∀ y ∈ imputeMean xs, y = c := imputeMean_const hne hc
  have himpne : imputeMean xs ≠ [] := by
    rw [imputeMean]
    simpa using hxs
  have hmean : mean (imputeMean xs) = c := mean_const himpne himp
  rw [numTransform, standardize, List.eq_replicate_iff]
  constructor
  · simp [imputeMean]
  · intro b hb
    obtain ⟨y, hy, rfl⟩ := List.mem_map.mp hb
    rw [hmean, himp y hy, sub_self, zero_div]

/-- C9 exercised on a concrete constant column with a missing entry. -/
theorem constant_column_all_zeros_witness :
    numTransform 1 [some 5, none, some 5] = List.replicate 3 0 :=
  constant_column_all_zeros 1 [some 5, none, some 5] 5 (by decide) (by decide)

lemma map_getD_of_no_none {xs : List (Option ℚ)} (d : ℚ)
    (h : ∀ o ∈ xs, o ≠ none) :
    xs.map (fun o => o.getD d) = present xs := by
  induction xs with
  | nil => simp [present]
  | cons a l ih =>
      cases a with
      | none => exact absurd rfl (h none (List.mem_cons_self none l))
      | some v =>
          rw [List.map_cons, present, List.filterMap_cons]
          exact congrArg (v :: ·) (ih (fun o ho => h o (List.mem_cons_of_mem _ ho)))

/-- C10.  On a column with no missing entries both imputation strategies
are the identity: the imputed column is exactly the (unwrapped) input
column, for the mean chain and the most-frequent chain alike. -/
theorem imputation_identity_no_missing (xs : List (Option ℚ))
    (h : ∀ o ∈ xs, o ≠ none) :
    imputeMean xs = present xs ∧ imputeMostFrequent xs = present xs :=
  ⟨map_getD_of_no_none _ h, map_getD_of_no_none _ h⟩

/-- C10 exercised on a concrete complete column. -/
theorem imputation_identity_no_missing_witness :
    imputeMean [some 1, some 2, some 2] = present [some 1, some 2, some 2] ∧
    imputeMostFrequent [some 1, some 2, some 2] = present [some 1, some 2, some 2] :=
  imputation_identity_no_missing [some 1, some 2, some 2] (by decide)

/-! ### C7: imputation semantics -/

lemma pickMode_eq_or_mem (xs : List ℚ) :
    ∀ (cands : List ℚ) (best : ℚ),
      pickMode xs cands best = best ∨ pickMode xs cands best ∈ cands := by
  intro cands
  induction cands with
  | nil => intro best; left; rfl
  | cons a t ih =>
      intro best
      rw [pickMode, List.foldl_cons]
      rcases ih (if xs.count best < xs.count a then a else best) with h | h
      · rw [pickMode] at h
        rw [h]
        by_cases hlt : xs.count best < xs.count a
        · right
          rw [if_pos hlt]
          exact List.mem_cons_self a t
        · left
          rw [if_neg hlt]
      · right
        exact List.mem_cons_of_mem a h

lemma pickMode_count_ge_init (xs : List ℚ) :
    ∀ (cands : List ℚ) (best : ℚ),
      xs.count best ≤ xs.count (pickMode xs cands best) := by
  intro cands
  induction cands with
  | nil => intro best; exact le_refl _
  | cons a t ih =>
      intro best
      rw [pickMode, List.foldl_cons]
      by_cases hlt : xs.count best < xs.count a
      · rw [if_pos hlt]
        exact le_trans (le_of_lt hlt) (ih a)
      · rw [if_neg hlt]
        exact ih best

lemma pickMode_count_ge (xs : List ℚ) :
    ∀ (cands : List ℚ) (best c : ℚ), c ∈ cands →
      xs.count c ≤ xs.count (pickMode xs cands best) := by
  intro cands
  induction cands with
  | nil => intro best c hc; cases hc
  | cons a t ih =>
      intro best c hc
      rw [pickMode, List.foldl_cons]
      rcases List.mem_cons.mp hc with rfl | hct
      · by_cases hlt : xs.count best < xs.count c
        · rw [if_pos hlt]
          exact pickMode_count_ge_init xs t c
        · rw [if_neg hlt]
          exact le_trans (le_of_not_lt hlt) (pickMode_count_ge_init xs t best)
      · exact ih _ c hct

lemma mostFrequent_mem {xs : List ℚ} (h : xs ≠ []) : mostFrequent xs ∈ xs := by
  have hd : xs.dedup ≠ [] := by
    simpa [List.dedup_eq_nil] using h
  have hcne : (xs.dedup).insertionSort (· ≤ ·) ≠ [] := by
    intro h0
    apply hd
    have := List.length_insertionSort (fun a b => a ≤ b) xs.dedup
    rw [h0] at this
    exact List.eq_nil_of_length_eq_zero this.symm
  have hmem : ∀ c ∈ (xs.dedup).insertionSort (· ≤ ·), c ∈ xs := by
    intro c hc
    exact List.mem_dedup.mp ((List.mem_insertionSort (fun a b => a ≤ b)).mp hc)
  rw [mostFrequent]
  rcases pickMode_eq_or_mem xs ((xs.dedup).insertionSort (· ≤ ·))
      (((xs.dedup).insertionSort (· ≤ ·)).headD 0) with h0 | h0
  · rw [h0]
    cases hcand : (xs.dedup).insertionSort (· ≤ ·) with
    | nil => exact absurd hcand hcne
    | cons a t =>
        apply hmem
        rw [hcand]
        exact List.mem_cons_self a t
  · exact hmem _ h0

lemma mostFrequent_count_ge {xs : List ℚ} :
    ∀ w ∈ xs, xs.count w ≤ xs.count (mostFrequent xs) := by
  intro w hw
  rw [mostFrequent]
  exact pickMode_count_ge xs _ _ w
    ((List.mem_insertionSort (fun a b => a ≤ b)).mpr (List.mem_dedup.mpr hw))

/-- C7.  Imputation acts entrywise and per column: a present entry passes
through unchanged in both chains; a missing entry becomes the mean of the
present entries in the mean chain and the most frequent present value in
the most-frequent chain, that value indeed being an observed value of
maximal frequency. -/
theorem imputation_semantics (xs : List (Option ℚ)) (hne : present xs ≠ []) :
    (∀ (i : Nat) (v : ℚ), xs[i]? = some (some v) →
      (imputeMean xs)[i]? = some v ∧ (imputeMostFrequent xs)[i]? = some v) ∧
    (∀ (i : Nat), xs[i]? = some none →
      (imputeMean xs)[i]? = some (mean (present xs)) ∧
      (imputeMostFrequent xs)[i]? = some (mostFrequent (present xs))) ∧
    mostFrequent (present xs) ∈ present xs ∧
    (∀ w ∈ present xs,
      (present xs).count w ≤ (present xs).count (mostFrequent (present xs))) := by
  refine ⟨?_, ?_, mostFrequent_mem hne, fun w hw => mostFrequent_count_ge w hw⟩
  · intro i v h
    constructor
    · rw [imputeMean, List.getElem?_map, h]
      rfl
    · rw [imputeMostFrequent, List.getElem?_map, h]
      rfl
  · intro i h
    constructor
    · rw [imputeMean, List.getElem?_map, h]
      rfl
    · rw [imputeMostFrequent, List.getElem?_map, h]
      rfl

/-- C7 exercised on a concrete column with one missing entry: present
values pass through, the hole gets the mean or the most frequent value. -/
theorem imputation_semantics_witness :
    (∀ (i : Nat) (v : ℚ), holeCol[i]? = some (some v) →
      (imputeMean holeCol)[i]? = some v ∧
      (imputeMostFrequent holeCol)[i]? = some v) ∧
    (∀ (i : Nat), holeCol[i]? = some none →
      (imputeMean holeCol)[i]? = some (mean (present holeCol)) ∧
      (imputeMostFrequent holeCol)[i]? = some (mostFrequent (present holeCol))) ∧
    mostFrequent (present holeCol) ∈ present holeCol ∧
    (∀ w ∈ present holeCol,
      (present holeCol).count w ≤
        (present holeCol).count (mostFrequent (present holeCol))) :=
  imputation_semantics holeCol (by decide)

/-! ### C2: one-hot indicator columns -/

lemma nodup_categoriesOf (xs : List ℚ) : (categoriesOf xs).Nodup := by
  rw [categoriesOf]
  exact (List.perm_insertionSort (fun a b => a ≤ b) xs.dedup).nodup_iff.mpr
    (List.nodup_dedup xs)

lemma mem_categoriesOf {xs : List ℚ} {v : ℚ} (hv : v ∈ xs) :
    v ∈ categoriesOf xs := by
  rw [categoriesOf]
  exact (List.mem_insertionSort (fun a b => a ≤ b)).mpr (List.mem_dedup.mpr hv)

lemma count_one_oneHotRow {cats : List ℚ} (hnd : cats.Nodup) {v : ℚ}
    (hv : v ∈ cats) : (oneHotRow cats v).count 1 = 1 := by
  induction cats with
  | nil => cases hv
  | cons a t ih =>
      rw [oneHotRow, List.map_cons]
      rcases List.mem_cons.mp hv with rfl | hvt
      · rw [if_pos rfl, List.count_cons_self]
        have hz : (t.map fun c => if v = c then (1 : ℚ) else 0).count 1 = 0 := by
          rw [List.count_eq_zero]
          intro hmem
          obtain ⟨c, hc, heq⟩ := List.mem_map.mp hmem
          by_cases hvc : v = c
          · exact (List.nodup_cons.mp hnd).1 (hvc ▸ hc)
          · rw [if_neg hvc] at heq
            exact one_ne_zero heq.symm
        rw [hz]
      · have hva : v ≠ a := by
          intro h
          exact (List.nodup_cons.mp hnd).1 (h ▸ hvt)
        rw [if_neg hva,
          List.count_cons_of_ne (by norm_num : (1 : ℚ) ≠ 0)]
        exact ih (List.nodup_cons.mp hnd).2 hvt

lemma mem_oneHotRow_binary {cats : List ℚ} {v q : ℚ}
    (hq : q ∈ oneHotRow cats v) : q = 1 ∨ q = 0 := by
  rw [oneHotRow] at hq
  obtain ⟨c, _, rfl⟩ := List.mem_map.mp hq
  by_cases hvc : v = c
  · rw [if_pos hvc]; left; rfl
  · rw [if_neg hvc]; right; rfl

lemma toFinset_imputeMostFrequent {xs : List (Option ℚ)}
    (hne : present xs ≠ []) :
    (imputeMostFrequent xs).toFinset = (present xs).toFinset := by
  ext v
  simp only [List.mem_toFinset, imputeMostFrequent, List.mem_map]
  constructor
  · rintro ⟨o, ho, rfl⟩
    cases o with
    | some w => exact mem_present_of_some ho
    | none => exact mostFrequent_mem hne
  · intro hv
    obtain ⟨o, ho, heq⟩ := List.mem_filterMap.mp hv
    refine ⟨o, ho, ?_⟩
    cases o with
    | some w => cases heq; rfl
    | none => cases heq

lemma dedup_length_imputeMostFrequent {xs : List (Option ℚ)}
    (hne : present xs ≠ []) :
    (imputeMostFrequent xs).dedup.length = (present xs).dedup.length := by
  rw [← List.card_toFinset, ← List.card_toFinset,
    toFinset_imputeMostFrequent hne]

lemma row_of_catTransform (xs : List (Option ℚ)) (i : Nat)
    (hi : i < xs.length) :
    (catTransform xs).map (fun col => col.getD i 0) =
      oneHotRow (categoriesOf (imputeMostFrequent xs))
        ((imputeMostFrequent xs).getD i 0) := by
  have hlen : i < (imputeMostFrequent xs).length := by
    rw [imputeMostFrequent, List.length_map]
    exact hi
  rw [catTransform, oneHotRow, List.map_map]
  apply List.map_congr_left
  intro c _
  show ((imputeMostFrequent xs).map fun v => if v = c then (1 : ℚ) else 0).getD i 0 =
    if (imputeMostFrequent xs).getD i 0 = c then 1 else 0
  rw [getD_map_lt _ _ _ hlen, List.getD_eq_getElem?_getD,
    List.getElem?_eq_getElem hlen]
  rfl

/-- C2.  The categorical chain produces one indicator column per distinct
observed value of the target column (the distinct count of the present
entries), and in every row exactly one indicator entry is 1 and all others
are 0. -/
theorem one_hot_indicator (xs : List (Option ℚ)) (hne : present xs ≠ []) :
    (catTransform xs).length = (present xs).dedup.length ∧
    ∀ i, i < xs.length →
      ((catTransform xs).map (fun col => col.getD i 0)).count 1 = 1 ∧
      ∀ q ∈ (catTransform xs).map (fun col => col.getD i 0), q = 1 ∨ q = 0 := by
  constructor
  · rw [catTransform]
    simp only [List.length_map]
    rw [categoriesOf, List.length_insertionSort]
    exact dedup_length_imputeMostFrequent hne
  · intro i hi
    rw [row_of_catTransform xs i hi]
    have hlen : i < (imputeMostFrequent xs).length := by
      rw [imputeMostFrequent, List.length_map]
      exact hi
    have hmem : (imputeMostFrequent xs).getD i 0 ∈ imputeMostFrequent xs := by
      rw [List.getD_eq_getElem?_getD, List.getElem?_eq_getElem hlen]
      exact List.getElem_mem hlen
    exact ⟨count_one_oneHotRow (nodup_categoriesOf _) (mem_categoriesOf hmem),
      fun q hq => mem_oneHotRow_binary hq⟩

/-- C2 exercised on a concrete target column with a missing entry: two
distinct observed values give two indicator columns, each row one-hot. -/
theorem one_hot_indicator_witness :
    (catTransform [some 0, some 1, none, some 1]).length =
      (present [some 0, some 1, none, some 1]).dedup.length ∧
    ∀ i, i < ([some 0, some 1, none, some 1] : List (Option ℚ)).length →
      ((catTransform [some 0, some 1, none, some 1]).map
        (fun col => col.getD i 0)).count 1 = 1 ∧
      ∀ q ∈ (catTransform [some 0, some 1, none, some 1]).map
        (fun col => col.getD i 0), q = 1 ∨ q = 0 :=
  one_hot_indicator [some 0, some 1, none, some 1] (by decide)

/-! ### Equations for column selection and preprocessing -/

lemma selectCols_cons_none {t : Table} {nm : String} {rest : List String}
    (hc : t.getCol nm = none) : selectCols t (nm :: rest) = none := by
  rw [selectCols, hc]

lemma selectCols_cons_stuck {t : Table} {nm : String} {rest : List String}
    {c : List (Option ℚ)} (hc : t.getCol nm = some c)
    (hrest : selectCols t rest = none) : selectCols t (nm :: rest) = none := by
  rw [selectCols, hc, hrest]

lemma selectCols_cons_some {t : Table} {nm : String} {rest : List String}
    {c : List (Option ℚ)} {cs : List (List (Option ℚ))}
    (hc : t.getCol nm = some c) (hrest : selectCols t rest = some cs) :
    selectCols t (nm :: rest) = some (c :: cs) := by
  rw [selectCols, hc, hrest]

lemma preprocess_some {sqrtv : ℚ → ℚ} {numF catF : List String} {t : Table}
    {numSrc catSrc : List (List (Option ℚ))}
    (hn : selectCols t numF = some numSrc)
    (hc : selectCols t catF = some catSrc) :
    preprocess sqrtv numF catF t =
      some (buildFrame sqrtv numF catF numSrc catSrc) := by
  rw [preprocess, hn, hc]

lemma preprocess_none_num {sqrtv : ℚ → ℚ} {numF catF : List String} {t : Table}
    (hn : selectCols t numF = none) : preprocess sqrtv numF catF t = none := by
  rw [preprocess, hn]

lemma preprocess_none_cat {sqrtv : ℚ → ℚ} {numF catF : List String} {t : Table}
    {numSrc : List (List (Option ℚ))}
    (hn : selectCols t numF = some numSrc)
    (hc : selectCols t catF = none) : preprocess sqrtv numF catF t = none := by
  rw [preprocess, hn, hc]

/-! ### C6: configuration mismatch aborts before the write -/

lemma selectCols_none {t : Table} {nm : String} (names : List String)
    (hmem : nm ∈ names) (hcol : t.getCol nm = none) :
    selectCols t names = none := by
  induction names with
  | nil => cases hmem
  | cons a rest ih =>
      rcases List.mem_cons.mp hmem with rfl | hrest
      · exact selectCols_cons_none hcol
      · cases hc : t.getCol a with
        | none => exact selectCols_cons_none hc
        | some c => exact selectCols_cons_stuck hc (ih hrest)

/-- C6.  When a configured numeric or categorical column name is absent
from the loaded table, the transform stage fails (the pipeline yields
`none`) and the run writes nothing: the file system is returned
untouched, so no output file exists that did not exist before. -/
theorem missing_column_aborts (sqrtv : ℚ → ℚ) (t : Table) (fs : FileSys)
    (nm : String)
    (hmem : nm ∈ numerical_features ∨ nm ∈ categorical_features)
    (hcol : t.getCol nm = none) :
    runPipeline sqrtv t = none ∧ runETL sqrtv t fs = fs := by
  have hpipe : runPipeline sqrtv t = none := by
    rw [runPipeline]
    rcases hmem with h | h
    · exact preprocess_none_num (selectCols_none numerical_features h hcol)
    · cases hn : selectCols t numerical_features with
      | none => exact preprocess_none_num hn
      | some numSrc =>
          exact preprocess_none_cat hn
            (selectCols_none categorical_features h hcol)
  refine ⟨hpipe, ?_⟩
  rw [runETL, hpipe]

/-- C6 exercised on the table lacking the target column: the pipeline
fails and an empty file system stays empty. -/
theorem missing_column_aborts_witness :
    runPipeline sqrt1 badTable = none ∧ runETL sqrt1 badTable fsEmpty = fsEmpty :=
  missing_column_aborts sqrt1 badTable fsEmpty "target" (Or.inr (by decide))
    (by decide)

/-! ### C8: the writer -/

/-- C8.  The writer serializes a frame whose column count matches its
header as one header line (the column names joined by commas) followed by
exactly one line per row, each row carrying one field per header name (no
row-index column), and stores the text at the fixed path
`transformed_data.csv`, overwriting whatever any prior file system held
there while leaving every other path untouched. -/
theorem writer_contract (fr : Frame) (fs : FileSys)
    (hwf : fr.columns.length = fr.header.length) :
    writeFile fs outPath (csv fr) outPath = some (csv fr) ∧
    (∀ p, p ≠ outPath → writeFile fs outPath (csv fr) p = fs p) ∧
    csvLines fr = (String.intercalate "," fr.header) ::
      fr.rows.map (fun r => String.intercalate "," (r.map renderCell)) ∧
    (csvLines fr).length = fr.nrows + 1 ∧
    (∀ r ∈ fr.rows, r.length = fr.header.length) := by
  refine ⟨?_, ?_, rfl, ?_, ?_⟩
  · rw [writeFile, if_pos rfl]
  · intro p hp
    rw [writeFile, if_neg hp]
  · rw [csvLines, List.length_cons, List.length_map, Frame.rows, rowsOfCols,
      List.length_map, List.length_range]
  · intro r hr
    rw [Frame.rows, rowsOfCols] at hr
    obtain ⟨i, _, rfl⟩ := List.mem_map.mp hr
    rw [List.length_map]
    exact hwf

/-- C8 exercised on a concrete two-column frame over a file system that
already holds stale content at the output path. -/
theorem writer_contract_witness :
    writeFile fsStale outPath (csv sampleFrame) outPath = some (csv sampleFrame) ∧
    (∀ p, p ≠ outPath → writeFile fsStale outPath (csv sampleFrame) p = fsStale p) ∧
    csvLines sampleFrame = (String.intercalate "," sampleFrame.header) ::
      sampleFrame.rows.map (fun r => String.intercalate "," (r.map renderCell)) ∧
    (csvLines sampleFrame).length = sampleFrame.nrows + 1 ∧
    (∀ r ∈ sampleFrame.rows, r.length = sampleFrame.header.length) :=
  writer_contract sampleFrame fsStale (by decide)

/-! ### C3, C4, C5: structure of the whole run -/

lemma selectCols_mem {t : Table} {names : List String}
    {srcs : List (List (Option ℚ))} (h : selectCols t names = some srcs) :
    ∀ xs ∈ srcs, ∃ nm ∈ names, t.getCol nm = some xs := by
  induction names generalizing srcs with
  | nil =>
      rw [selectCols] at h
      injection h with h2
      subst h2
      intro xs hxs
      cases hxs
  | cons a rest ih =>
      cases hc : t.getCol a with
      | none =>
          rw [selectCols_cons_none hc] at h
          exact Option.noConfusion h
      | some c =>
          cases hrest : selectCols t rest with
          | none =>
              rw [selectCols_cons_stuck hc hrest] at h
              exact Option.noConfusion h
          | some cs =>
              rw [selectCols_cons_some hc hrest] at h
              injection h with h2
              subst h2
              intro xs hxs
              rcases List.mem_cons.mp hxs with rfl | hmem
              · exact ⟨a, List.mem_cons_self a rest, hc⟩
              · obtain ⟨nm, hnm, hgot⟩ := ih hrest xs hmem
                exact ⟨nm, List.mem_cons_of_mem a hnm, hgot⟩

lemma selectCols_length {t : Table} {names : List String}
    {srcs : List (List (Option ℚ))} (h : selectCols t names = some srcs) :
    srcs.length = names.length := by
  induction names generalizing srcs with
  | nil =>
      rw [selectCols] at h
      injection h with h2
      subst h2
      rfl
  | cons a rest ih =>
      cases hc : t.getCol a with
      | none =>
          rw [selectCols_cons_none hc] at h
          exact Option.noConfusion h
      | some c =>
          cases hrest : selectCols t rest with
          | none =>
              rw [selectCols_cons_stuck hc hrest] at h
              exact Option.noConfusion h
          | some cs =>
              rw [selectCols_cons_some hc hrest] at h
              injection h with h2
              subst h2
              rw [List.length_cons, List.length_cons, ih hrest]

lemma getCol_length {t : Table} {n : Nat} {nm : String}
    {src : List (Option ℚ)} (hwf : t.hasRowCount n)
    (h : t.getCol nm = some src) : src.length = n := by
  rw [Table.getCol] at h
  obtain ⟨c, hfind, hval⟩ := Option.map_eq_some'.mp h
  exact hval ▸ hwf c (List.mem_of_find?_eq_some hfind)

lemma numTransform_is_map (sq : ℚ) (xs : List (Option ℚ)) :
    numTransform sq xs =
      xs.map (fun o =>
        (o.getD (mean (present xs)) - mean (imputeMean xs)) /
          if pvariance (imputeMean xs) = 0 then 1
          else sq) := by
  rw [numTransform, standardize, imputeMean, List.map_map]
  rfl

lemma catTransform_col_is_map {xs : List (Option ℚ)} {col : List ℚ}
    (h : col ∈ catTransform xs) :
    ∃ g, col = xs.map g := by
  rw [catTransform] at h
  obtain ⟨c, _, rfl⟩ := List.mem_map.mp h
  rw [imputeMostFrequent, List.map_map]
  exact ⟨_, rfl⟩

/-- C3.  The preprocessing step keeps the row structure intact: it
succeeds on the selected columns, every output column still has the input
row count `n` (so no rows are dropped or added), the frame exposes exactly
`n` rows, every output column is a positional map of one selected input
column (so row `i` of the output is computed from row `i` of the input,
order preserved), and the written file has exactly one header line plus
`n` row lines. -/
theorem row_preservation (sqrtv : ℚ → ℚ) (t : Table) (n : Nat)
    (numSrc catSrc : List (List (Option ℚ)))
    (hwf : t.hasRowCount n)
    (hn : selectCols t numerical_features = some numSrc)
    (hc : selectCols t categorical_features = some catSrc) :
    runPipeline sqrtv t =
      some (buildFrame sqrtv numerical_features categorical_features numSrc catSrc) ∧
    (∀ col ∈ (buildFrame sqrtv numerical_features categorical_features
        numSrc catSrc).columns, col.length = n) ∧
    (buildFrame sqrtv numerical_features categorical_features numSrc catSrc).nrows = n ∧
    (buildFrame sqrtv numerical_features categorical_features numSrc catSrc).rows.length = n ∧
    (∀ col ∈ (buildFrame sqrtv numerical_features categorical_features
        numSrc catSrc).columns, ∃ nm src g,
      (nm ∈ numerical_features ∨ nm ∈ categorical_features) ∧
      t.getCol nm = some src ∧ col = src.map g) ∧
    (csvLines (buildFrame sqrtv numerical_features categorical_features
      numSrc catSrc)).length = n + 1 := by
  have hrun : runPipeline sqrtv t =
      some (buildFrame sqrtv numerical_features categorical_features numSrc catSrc) := by
    rw [runPipeline]
    exact preprocess_some hn hc
  have hmaps : ∀ col ∈ (buildFrame sqrtv numerical_features categorical_features
      numSrc catSrc).columns, ∃ nm src g,
      (nm ∈ numerical_features ∨ nm ∈ categorical_features) ∧
      t.getCol nm = some src ∧ col = src.map g := by
    intro col hcol
    rw [buildFrame] at hcol
    rcases List.mem_append.mp hcol with h | h
    · obtain ⟨xs, hxs, rfl⟩ := List.mem_map.mp h
      obtain ⟨nm, hnm, hgot⟩ := selectCols_mem hn xs hxs
      exact ⟨nm, xs, _, Or.inl hnm, hgot, numTransform_is_map _ xs⟩
    · obtain ⟨l, hl, hcl⟩ := List.mem_flatten.mp h
      obtain ⟨xs, hxs, rfl⟩ := List.mem_map.mp hl
      obtain ⟨nm, hnm, hgot⟩ := selectCols_mem hc xs hxs
      obtain ⟨g, hg⟩ := catTransform_col_is_map hcl
      exact ⟨nm, xs, g, Or.inr hnm, hgot, hg⟩
  have hlen : ∀ col ∈ (buildFrame sqrtv numerical_features categorical_features
      numSrc catSrc).columns, col.length = n := by
    intro col hcol
    obtain ⟨nm, src, g, _, hgot, rfl⟩ := hmaps col hcol
    rw [List.length_map]
    exact getCol_length hwf hgot
  have hnum4 : numSrc.length = 4 := selectCols_length hn
  have hnrows : (buildFrame sqrtv numerical_features categorical_features
      numSrc catSrc).nrows = n := by
    cases hns : numSrc with
    | nil => rw [hns] at hnum4; cases hnum4
    | cons x rest =>
        subst hns
        rw [Frame.nrows]
        have hhead : (buildFrame sqrtv numerical_features categorical_features
            (x :: rest) catSrc).columns =
            numTransform (sqrtv (pvariance (imputeMean x))) x ::
              (rest.map (fun xs =>
                numTransform (sqrtv (pvariance (imputeMean xs))) xs) ++
                (catSrc.map catTransform).flatten) := rfl
        rw [hhead, List.headD_cons]
        exact hlen _ (by rw [hhead]; exact List.mem_cons_self _ _)
  have hrows : (buildFrame sqrtv numerical_features categorical_features
      numSrc catSrc).rows.length = n := by
    rw [Frame.rows, rowsOfCols, List.length_map, List.length_range, hnrows]
  refine ⟨hrun, hlen, hnrows, hrows, hmaps, ?_⟩
  rw [csvLines, List.length_cons, List.length_map, hrows]

/-- C3 exercised on the two-row sample table. -/
theorem row_preservation_witness :
    runPipeline sqrt1 sampleTable =
      some (buildFrame sqrt1 numerical_features categorical_features
        sampleNumSrc sampleCatSrc) ∧
    (∀ col ∈ (buildFrame sqrt1 numerical_features categorical_features
        sampleNumSrc sampleCatSrc).columns, col.length = 2) ∧
    (buildFrame sqrt1 numerical_features categorical_features
      sampleNumSrc sampleCatSrc).nrows = 2 ∧
    (buildFrame sqrt1 numerical_features categorical_features
      sampleNumSrc sampleCatSrc).rows.length = 2 ∧
    (∀ col ∈ (buildFrame sqrt1 numerical_features categorical_features
        sampleNumSrc sampleCatSrc).columns, ∃ nm src g,
      (nm ∈ numerical_features ∨ nm ∈ categorical_features) ∧
      sampleTable.getCol nm = some src ∧ col = src.map g) ∧
    (csvLines (buildFrame sqrt1 numerical_features categorical_features
      sampleNumSrc sampleCatSrc)).length = 2 + 1 :=
  row_preservation sqrt1 sampleTable 2 sampleNumSrc sampleCatSrc
    (by decide) (by decide) (by decide)

/-- C4.  The output header is the numeric column names, in their original
order, followed by one generated name per distinct category value the
encoder observed in the imputed target column, in the encoder's category
order, each generated name being the source column name, an underscore
and the category value. -/
theorem header_layout (sqrtv : ℚ → ℚ) (t : Table)
    (numSrc catSrc : List (List (Option ℚ))) (xs : List (Option ℚ))
    (hn : selectCols t numerical_features = some numSrc)
    (hc : selectCols t categorical_features = some catSrc)
    (ht : t.getCol "target" = some xs) :
    runPipeline sqrtv t =
      some (buildFrame sqrtv numerical_features categorical_features numSrc catSrc) ∧
    (buildFrame sqrtv numerical_features categorical_features numSrc catSrc).header =
      numerical_features ++
        (categoriesOf (imputeMostFrequent xs)).map
          (fun c => "target" ++ "_" ++ toString c) := by
  have hcs : catSrc = [xs] := by
    rw [categorical_features] at hc
    have h1 : selectCols t ["target"] = some [xs] :=
      selectCols_cons_some ht (show selectCols t [] = some [] from rfl)
    rw [h1] at hc
    injection hc with h2
    exact h2.symm
  constructor
  · rw [runPipeline]
    exact preprocess_some hn hc
  · subst hcs
    rw [buildFrame, categorical_features]
    simp [catFeatureNames]

/-- C4 exercised on the sample table: four numeric names then target_0,
target_1. -/
theorem header_layout_witness :
    runPipeline sqrt1 sampleTable =
      some (buildFrame sqrt1 numerical_features categorical_features
        sampleNumSrc sampleCatSrc) ∧
    (buildFrame sqrt1 numerical_features categorical_features
      sampleNumSrc sampleCatSrc).header =
      numerical_features ++
        (categoriesOf (imputeMostFrequent [some 0, some 1])).map
          (fun c => "target" ++ "_" ++ toString c) :=
  header_layout sqrt1 sampleTable sampleNumSrc sampleCatSrc [some 0, some 1]
    (by decide) (by decide) (by decide)

/-- C5.  The run is deterministic: whatever file system a run starts from,
a successful transform makes it write the same bytes to the same path, so
two runs on the same static source produce identical output files. -/
theorem deterministic_run (sqrtv : ℚ → ℚ) (t : Table) (fr : Frame)
    (h : runPipeline sqrtv t = some fr) (fs1 fs2 : FileSys) :
    runETL sqrtv t fs1 outPath = some (csv fr) ∧
    runETL sqrtv t fs2 outPath = some (csv fr) ∧
    runETL sqrtv t fs1 outPath = runETL sqrtv t fs2 outPath := by
  have hw : ∀ fs : FileSys, runETL sqrtv t fs outPath = some (csv fr) := by
    intro fs
    rw [runETL, h]
    show (if outPath = outPath then some (csv fr) else fs outPath) = some (csv fr)
    rw [if_pos rfl]
  exact ⟨hw fs1, hw fs2, (hw fs1).trans (hw fs2).symm⟩

/-- C5 exercised: a run over an empty file system and a run over a file
system holding stale output produce the same file content. -/
theorem deterministic_run_witness :
    runETL sqrt1 sampleTable fsEmpty outPath =
      some (csv (buildFrame sqrt1 numerical_features categorical_features
        sampleNumSrc sampleCatSrc)) ∧
    runETL sqrt1 sampleTable fsStale outPath =
      some (csv (buildFrame sqrt1 numerical_features categorical_features
        sampleNumSrc sampleCatSrc)) ∧
    runETL sqrt1 sampleTable fsEmpty outPath =
      runETL sqrt1 sampleTable fsStale outPath :=
  deterministic_run sqrt1 sampleTable
    (buildFrame sqrt1 numerical_features categorical_features
      sampleNumSrc sampleCatSrc)
    (by rfl) fsEmpty fsStale

end ETL
